import Mathlib

/-!
Verification of the acquisition-and-reduction core of the Radboud FUS
measurement kit (SonoRover One software).

The Python sources are shallowly embedded:
* `scan_iter.py` — the `Scan_Iter` grid index iterator (`dir_i2nsnrnc`,
  `alt_i2nsnrnc`, `__iter__`/`__next__` as an explicit state machine);
* `backend/acquisition.py` / `acquisition.py` — phasor extraction
  (`_process_data`/`process_data`), window shifting (`_adjust_beg`),
  grid coordinate computation (`_calculate_new_coord_and_save` and the
  legacy `scan_grid`), the retry loop of `_acquire_data`, the alignment
  center-of-mass search (`_scan_and_find_center_of_mass`) and the
  acoustical-axis fit (`_calculate_acoustical_axis`).

Machine reals (numpy float64) are modelled as exact numbers: `ℚ` where
the code only adds/multiplies/divides, `ℝ`/`ℂ` where the lock-in
computation genuinely needs `exp`, `abs` and `arg`.
-/

namespace FUSKit

/-! ## Scan_Iter (scan_iter.py) -/

/-- `Scan_Iter.dir_i2nsnrnc`: rectangular sequential decomposition of the
linear counter `i` into `(slice, row, col)`.  Only `nr` and `nc` enter the
computation, exactly as in the source. -/
def dir_i2nsnrnc (nr nc i : ℕ) : ℕ × ℕ × ℕ :=
  let nrnc := nr * nc
  let sl := i / nrnc
  let rc := i % nrnc
  let row := rc / nc
  let col := rc % nc
  (sl, row, col)

/-- `Scan_Iter.alt_i2nsnrnc`: rectangular alternate (boustrophedon)
decomposition — on odd rows the column runs backwards. -/
def alt_i2nsnrnc (nr nc i : ℕ) : ℕ × ℕ × ℕ :=
  let nrnc := nr * nc
  let sl := i / nrnc
  let rc := i % nrnc
  let row := rc / nc
  let rem := rc % nc
  let col := if row % 2 = 0 then rem else nc - rem - 1
  (sl, row, col)

/-- The conversion applied by `__next__` to the current counter, selected by
the traversal mode (`direct = true` for `scan='Dir'`). -/
def scanConv (nr nc : ℕ) (d : Bool) (i : ℕ) : ℕ × ℕ × ℕ :=
  if d then dir_i2nsnrnc nr nc i else alt_i2nsnrnc nr nc i

/-- One complete iteration of `Scan_Iter(ns, nr, nc, scan)`: the `__next__`
method yields the converted counter for `cur_index = 0, 1, …, N-1` with
`N = ns*nr*nc`, then raises `StopIteration`. -/
def scanIterSeq (ns nr nc : ℕ) (direct : Bool) : List (ℕ × ℕ × ℕ) :=
  (List.range (ns * nr * nc)).map (scanConv nr nc direct)

/-- Inverse of the counter decomposition: the linear counter reconstructed
from a `(slice, row, col)` triple (used only in proofs, not part of the
source). -/
def scanIterInv (nr nc : ℕ) (direct : Bool) (t : ℕ × ℕ × ℕ) : ℕ :=
  let rem := if direct then t.2.2
    else if t.2.1 % 2 = 0 then t.2.2 else nc - t.2.2 - 1
  t.1 * (nr * nc) + t.2.1 * nc + rem

example : scanIterSeq 1 2 2 true = [(0,0,0), (0,0,1), (0,1,0), (0,1,1)] := by decide
example : scanIterSeq 1 2 2 false = [(0,0,0), (0,0,1), (0,1,1), (0,1,0)] := by decide
example : scanIterInv 2 2 false (0,1,0) = 3 := by decide

lemma dir_i2nsnrnc_eq (nr nc i : ℕ) :
    dir_i2nsnrnc nr nc i =
      (i / (nr * nc), i % (nr * nc) / nc, i % (nr * nc) % nc) := rfl

lemma alt_i2nsnrnc_eq (nr nc i : ℕ) :
    alt_i2nsnrnc nr nc i =
      (i / (nr * nc), i % (nr * nc) / nc,
        if i % (nr * nc) / nc % 2 = 0 then i % (nr * nc) % nc
        else nc - i % (nr * nc) % nc - 1) := rfl

lemma scanIterInv_eq (nr nc : ℕ) (d : Bool) (t : ℕ × ℕ × ℕ) :
    scanIterInv nr nc d t =
      t.1 * (nr * nc) + t.2.1 * nc +
        (if d then t.2.2 else if t.2.1 % 2 = 0 then t.2.2 else nc - t.2.2 - 1) := rfl

lemma scanIterInv_dir (nr nc i : ℕ) :
    scanIterInv nr nc true (dir_i2nsnrnc nr nc i) = i := by
  rw [dir_i2nsnrnc_eq, scanIterInv_eq]
  have h1 := Nat.div_add_mod' i (nr * nc)
  have h2 := Nat.div_add_mod' (i % (nr * nc)) nc
  simp only [if_true]
  linarith [h1, h2]

lemma scanIterInv_alt (nr nc i : ℕ) (hc : 0 < nc) :
    scanIterInv nr nc false (alt_i2nsnrnc nr nc i) = i := by
  rw [alt_i2nsnrnc_eq, scanIterInv_eq]
  have h1 := Nat.div_add_mod' i (nr * nc)
  have h2 := Nat.div_add_mod' (i % (nr * nc)) nc
  have hrem : i % (nr * nc) % nc < nc := Nat.mod_lt _ hc
  simp only [Bool.false_eq_true, if_false]
  by_cases hrow : i % (nr * nc) / nc % 2 = 0
  · simp only [hrow, if_true, if_pos]
    linarith [h1, h2]
  · simp only [hrow, if_false, if_neg hrow]
    have hout : nc - (nc - i % (nr * nc) % nc - 1) - 1 = i % (nr * nc) % nc := by omega
    rw [hout]
    linarith [h1, h2]

/-- Left inverse of the counter decomposition, for both traversal modes. -/
lemma scanIterInv_conv (nr nc : ℕ) (d : Bool) (i : ℕ) (hc : 0 < nc) :
    scanIterInv nr nc d (scanConv nr nc d i) = i := by
  cases d
  · simpa [scanConv] using scanIterInv_alt nr nc i hc
  · simpa [scanConv] using scanIterInv_dir nr nc i

/-- Every triple produced within one iteration lies in the index box. -/
lemma conv_mem_box (ns nr nc : ℕ) (d : Bool) (i : ℕ)
    (hr : 0 < nr) (hc : 0 < nc) (hi : i < ns * nr * nc) :
    (scanConv nr nc d i).1 < ns ∧
    (scanConv nr nc d i).2.1 < nr ∧
    (scanConv nr nc d i).2.2 < nc := by
  have hnrnc : 0 < nr * nc := Nat.mul_pos hr hc
  have hsl : i / (nr * nc) < ns := by
    apply Nat.div_lt_of_lt_mul
    have : ns * nr * nc = nr * nc * ns := by ring
    rw [← this]
    exact hi
  have hrc : i % (nr * nc) < nr * nc := Nat.mod_lt _ hnrnc
  have hrow : i % (nr * nc) / nc < nr := by
    apply Nat.div_lt_of_lt_mul
    have : nr * nc = nc * nr := by ring
    rw [← this]
    exact hrc
  have hremlt : i % (nr * nc) % nc < nc := Nat.mod_lt _ hc
  cases d
  · rw [scanConv, if_neg (by simp), alt_i2nsnrnc_eq]
    refine ⟨hsl, hrow, ?_⟩
    dsimp only
    split
    · exact hremlt
    · omega
  · rw [scanConv, if_pos rfl, dir_i2nsnrnc_eq]
    exact ⟨hsl, hrow, hremlt⟩

/-- **C1**: for all `ns, nr, nc ≥ 1` and both traversal modes, one complete
iteration of `Scan_Iter(ns, nr, nc)` yields exactly `ns*nr*nc` pairwise
distinct `(slice, row, col)` triples whose set is the full cartesian
product `{0..ns-1} × {0..nr-1} × {0..nc-1}`. -/
theorem scan_iter_covers_grid (ns nr nc : ℕ) (d : Bool)
    (hs : 1 ≤ ns) (hr : 1 ≤ nr) (hc : 1 ≤ nc) :
    (scanIterSeq ns nr nc d).length = ns * nr * nc ∧
    (scanIterSeq ns nr nc d).Nodup ∧
    (scanIterSeq ns nr nc d).toFinset =
      Finset.range ns ×ˢ Finset.range nr ×ˢ Finset.range nc := by
  have hlen : (scanIterSeq ns nr nc d).length = ns * nr * nc := by
    simp [scanIterSeq]
  have hnodup : (scanIterSeq ns nr nc d).Nodup := by
    refine (List.nodup_range _).map_on ?_
    intro x _ y _ hxy
    have hx := scanIterInv_conv nr nc d x hc
    have hy := scanIterInv_conv nr nc d y hc
    rw [← hx, ← hy, hxy]
  have hsubset : (scanIterSeq ns nr nc d).toFinset ⊆
      Finset.range ns ×ˢ Finset.range nr ×ˢ Finset.range nc := by
    intro t ht
    rw [List.mem_toFinset, scanIterSeq, List.mem_map] at ht
    obtain ⟨i, hi, rfl⟩ := ht
    rw [List.mem_range] at hi
    have hbox := conv_mem_box ns nr nc d i hr hc hi
    simp only [Finset.mem_product, Finset.mem_range]
    exact hbox
  have h1 : (scanIterSeq ns nr nc d).toFinset.card = ns * nr * nc := by
    rw [List.toFinset_card_of_nodup hnodup, hlen]
  have h2 : ((Finset.range ns ×ˢ Finset.range nr ×ˢ Finset.range nc) :
      Finset (ℕ × ℕ × ℕ)).card = ns * nr * nc := by
    simp [Finset.card_product, Nat.mul_assoc]
  have hcard : ((Finset.range ns ×ˢ Finset.range nr ×ˢ Finset.range nc) :
      Finset (ℕ × ℕ × ℕ)).card ≤ (scanIterSeq ns nr nc d).toFinset.card := by
    rw [h1, h2]
  exact ⟨hlen, hnodup, Finset.eq_of_subset_of_card_le hsubset hcard⟩

/-- Witness for C1 at `ns = 2, nr = 2, nc = 3`, alternating mode. -/
theorem scan_iter_covers_grid_witness :
    (scanIterSeq 2 2 3 false).length = 2 * 2 * 3 ∧
    (scanIterSeq 2 2 3 false).Nodup ∧
    (scanIterSeq 2 2 3 false).toFinset =
      Finset.range 2 ×ˢ Finset.range 2 ×ˢ Finset.range 3 :=
  scan_iter_covers_grid 2 2 3 false (by decide) (by decide) (by decide)

/-! ## Scan_Iter as a stateful iterator (claim C9)

`Scan_Iter.__init__` stores `cur_index = 0`; `__iter__` returns `self`
unchanged; `__next__` raises `StopIteration` once `cur_index >= N` and
otherwise yields the converted counter and increments `cur_index`. -/

/-- The mutable state of a `Scan_Iter` object. -/
structure ScanIter where
  ns : ℕ
  nr : ℕ
  nc : ℕ
  N : ℕ
  cur_index : ℕ
  direct : Bool

/-- `Scan_Iter.__init__(ns, nr, nc, scan)`. -/
def ScanIter.init (ns nr nc : ℕ) (scan : String) : ScanIter :=
  { ns := ns, nr := nr, nc := nc, N := ns * nr * nc, cur_index := 0,
    direct := if scan = "Dir" then true else false }

/-- `Scan_Iter.__iter__` returns the object itself, without resetting
`cur_index`. -/
def ScanIter.iter (s : ScanIter) : ScanIter := s

/-- `Scan_Iter.__next__`: `none` models `StopIteration`. -/
def ScanIter.next (s : ScanIter) : Option ((ℕ × ℕ × ℕ) × ScanIter) :=
  if s.N ≤ s.cur_index then none
  else some (scanConv s.nr s.nc s.direct s.cur_index,
             { s with cur_index := s.cur_index + 1 })

/-- One `for`-loop over the iterator: repeatedly call `__next__` until
`StopIteration`, collecting the yielded triples; also returns the state of
the object when the loop ends. -/
def ScanIter.drain (s : ScanIter) : List (ℕ × ℕ × ℕ) × ScanIter :=
  if h : s.N ≤ s.cur_index then ([], s)
  else
    let p := ScanIter.drain { s with cur_index := s.cur_index + 1 }
    (scanConv s.nr s.nc s.direct s.cur_index :: p.1, p.2)
termination_by s.N - s.cur_index
decreasing_by simp; omega

lemma ScanIter.drain_of_exhausted (s : ScanIter) (h : s.N ≤ s.cur_index) :
    s.drain = ([], s) := by
  unfold ScanIter.drain
  rw [dif_pos h]

/-- After a complete loop over the object, `cur_index` has reached `N`. -/
lemma ScanIter.drain_exhausts (s : ScanIter) :
    (ScanIter.drain s).2.N ≤ (ScanIter.drain s).2.cur_index := by
  generalize hm : s.N - s.cur_index = m
  induction m generalizing s with
  | zero =>
    have h : s.N ≤ s.cur_index := by omega
    rw [ScanIter.drain_of_exhausted s h]
    exact h
  | succ n ih =>
    have h : ¬ s.N ≤ s.cur_index := by omega
    unfold ScanIter.drain
    rw [dif_neg h]
    apply ih
    simp
    omega

/-- **C9 (amended)**: a `Scan_Iter` object is single-use, not restartable —
after a complete iteration exhausts the sequence, beginning a new iteration
over the same object (`__iter__` returns `self` with `cur_index` untouched)
yields the empty sequence, for every iterator state. -/
theorem scan_iter_second_iteration_empty (s : ScanIter) :
    (ScanIter.drain ((ScanIter.drain s.iter).2.iter)).1 = [] := by
  have h := ScanIter.drain_exhausts s.iter
  rw [ScanIter.iter, ScanIter.iter,
      ScanIter.drain_of_exhausted ((ScanIter.drain s).2) h]

lemma scanIter_111_first : ScanIter.drain ((ScanIter.init 1 1 1 "Dir").iter) =
    ([(0, 0, 0)], ⟨1, 1, 1, 1, 1, true⟩) := by
  have hinit : (ScanIter.init 1 1 1 "Dir").iter = ⟨1, 1, 1, 1, 0, true⟩ := by
    simp [ScanIter.init, ScanIter.iter]
  rw [hinit]
  rw [ScanIter.drain]
  norm_num [scanConv, dir_i2nsnrnc_eq]
  rw [ScanIter.drain]
  norm_num

/-- Counterexample to C9 as stated: for the `Scan_Iter(1, 1, 1, 'Dir')`
object, the first complete iteration yields `[(0,0,0)]` but the second
iteration over the same object yields `[]`, not the full sequence again. -/
theorem scan_iter_restartable_cex :
    (ScanIter.drain ((ScanIter.init 1 1 1 "Dir").iter)).1 = [(0, 0, 0)] ∧
    (ScanIter.drain (((ScanIter.drain
        ((ScanIter.init 1 1 1 "Dir").iter)).2).iter)).1 = [] ∧
    (ScanIter.drain (((ScanIter.drain
        ((ScanIter.init 1 1 1 "Dir").iter)).2).iter)).1 ≠
      (ScanIter.drain ((ScanIter.init 1 1 1 "Dir").iter)).1 := by
  have h1 := scanIter_111_first
  have h2 : (ScanIter.drain ((⟨1, 1, 1, 1, 1, true⟩ : ScanIter).iter)).1 = [] := by
    rw [ScanIter.iter, ScanIter.drain_of_exhausted _ (by norm_num)]
  refine ⟨by rw [h1], ?_, ?_⟩
  · rw [h1]
    exact h2
  · rw [h1]
    simp only [ScanIter.iter] at h2 ⊢
    rw [h2]
    simp

/-! ## Grid coordinates (claim C3)

`backend/acquisition.py::_calculate_new_coord_and_save` (branch without an
external coordinate excel) and the legacy `acquisition.py::scan_grid`
(same branch).  Coordinates are modelled exactly over `ℚ`. -/

/-- A 3D coordinate / spacing vector in millimetres. -/
abbrev Vec3 := ℚ × ℚ × ℚ

/-- Componentwise scaling of a vector by a scalar. -/
def smul3 (c : ℚ) (v : Vec3) : Vec3 := (c * v.1, c * v.2.1, c * v.2.2)

/-- `_calculate_new_coord_and_save` (backend, `use_coord_excel = False`):
`dest_xyz = coord_start + i*vect_sl + j*vect_row + k*vect_col` where `i`,
`j`, `k` are the slice, row and column loop indices of `_scan_grid`. -/
def calculate_new_coord (coord_start vect_sl vect_row vect_col : Vec3)
    (i j k : ℕ) : Vec3 :=
  coord_start + smul3 i vect_sl + smul3 j vect_row + smul3 k vect_col

/-- Legacy `scan_grid` (top-level `acquisition.py`, `use_coord_excel`
false): `destXYZ = starting_pos + i*vectSl + j*vectCol + k*vectRow` with
`i` the slice, `j` the row and `k` the column loop index — note that the
row index multiplies `vectCol` and the column index multiplies `vectRow`
in this file. -/
def scan_grid_destXYZ (starting_pos vectSl vectRow vectCol : Vec3)
    (i j k : ℕ) : Vec3 :=
  starting_pos + smul3 i vectSl + smul3 j vectCol + smul3 k vectRow

/-- The coordinate formula as the claim states it:
`origin + s*vectSlice + r*vectRow + c*vectCol`. -/
def specGridCoord (origin vectSlice vectRow vectCol : Vec3)
    (s r c : ℕ) : Vec3 :=
  origin + smul3 s vectSlice + smul3 r vectRow + smul3 c vectCol

/-- The ordered list of absolute destination coordinates visited by the
backend `_scan_grid` loops (`for i in range(nsl): for j in range(nrow):
for k in range(ncol)`), without an external coordinate table. -/
def scanGridCoords (nsl nrow ncol : ℕ)
    (coord_start vect_sl vect_row vect_col : Vec3) : List Vec3 :=
  (List.range nsl).flatMap (fun i =>
    (List.range nrow).flatMap (fun j =>
      (List.range ncol).map (fun k =>
        calculate_new_coord coord_start vect_sl vect_row vect_col i j k)))

/-- **C3 (amended)**: in the backend, the destination coordinate of grid
point `(s, r, c)` equals `origin + s*vect_sl + r*vect_row + c*vect_col`,
and the minimal scan scenario (`nsl = nrow = 1`, `ncol = 3`, origin
`(0,0,0)`, `vect_col = (1,0,0)`) visits `(0,0,0), (1,0,0), (2,0,0)` in
that order for any slice/row vectors; the legacy `scan_grid`, however,
swaps the roles of the row and column vectors: there the destination is
`origin + s*vectSl + r*vectCol + c*vectRow`. -/
theorem grid_coord_formula (origin vsl vrow vcol : Vec3) (s r c : ℕ) :
    calculate_new_coord origin vsl vrow vcol s r c =
      specGridCoord origin vsl vrow vcol s r c ∧
    scanGridCoords 1 1 3 (0, 0, 0) vsl vrow (1, 0, 0) =
      [(0, 0, 0), (1, 0, 0), (2, 0, 0)] ∧
    scan_grid_destXYZ origin vsl vrow vcol s r c =
      specGridCoord origin vsl vcol vrow s r c := by
  refine ⟨rfl, ?_, rfl⟩
  show [calculate_new_coord (0,0,0) vsl vrow (1,0,0) 0 0 0,
        calculate_new_coord (0,0,0) vsl vrow (1,0,0) 0 0 1,
        calculate_new_coord (0,0,0) vsl vrow (1,0,0) 0 0 2] = _
  simp [calculate_new_coord, smul3, Prod.ext_iff]

/-- Counterexample to C3 as stated: in the legacy `scan_grid`, with origin
`(0,0,0)`, `vectSl = (0,0,1)`, `vectRow = (0,1,0)`, `vectCol = (1,0,0)`,
grid point `(s,r,c) = (0,0,1)` is commanded to `(0,1,0)` (one step along
`vectRow`), not to `(1,0,0)` as the claimed formula
`origin + s*vectSlice + r*vectRow + c*vectCol` requires. -/
theorem grid_coord_formula_cex :
    scan_grid_destXYZ (0, 0, 0) (0, 0, 1) (0, 1, 0) (1, 0, 0) 0 0 1 =
      ((0 : ℚ), (1 : ℚ), (0 : ℚ)) ∧
    specGridCoord (0, 0, 0) (0, 0, 1) (0, 1, 0) (1, 0, 0) 0 0 1 =
      ((1 : ℚ), (0 : ℚ), (0 : ℚ)) ∧
    scan_grid_destXYZ (0, 0, 0) (0, 0, 1) (0, 1, 0) (1, 0, 0) 0 0 1 ≠
      specGridCoord (0, 0, 0) (0, 0, 1) (0, 1, 0) (1, 0, 0) 0 0 1 := by
  refine ⟨?_, ?_, ?_⟩ <;> norm_num [scan_grid_destXYZ, specGridCoord, smul3, Prod.ext_iff]

/-! ## Phasor extraction (claims C2, C8, C10)

`backend/acquisition.py::_process_data` and the identical legacy
`acquisition.py::process_data`, together with the reference signal
construction of `_init_processing` / `init_processing`. -/

/-- The numpy slice `xs[beg:end]` (for indices within range). -/
def pySlice {α : Type} (xs : List α) (beg e : ℕ) : List α :=
  (xs.take e).drop beg

/-- `np.dot` of a real-valued and a complex-valued vector of equal length:
the sum of componentwise products. -/
def dotRC (xs : List ℝ) (ys : List ℂ) : ℂ :=
  (List.zipWith (fun (x : ℝ) (y : ℂ) => (x : ℂ) * y) xs ys).sum

/-- The reference complex exponential at the operating frequency, at sample
`n`: `exp(1j * 2 * pi * f * t[n])` with `t[n] = sampling_period * n`. -/
noncomputable def refSignal (f T : ℝ) (n : ℕ) : ℂ :=
  Complex.exp (Complex.I * (2 * Real.pi * f * (T * n)))

/-- `_init_processing`: the precomputed array
`eiwt = np.exp(1j * 2 * np.pi * oper_freq * t)`, `t = sampling_period *
np.arange(0, sample_count)`. -/
noncomputable def eiwtList (f T : ℝ) (sample_count : ℕ) : List ℂ :=
  (List.range sample_count).map (refSignal f T)

/-- Python's `if not end: end = self.sample_count`: an `end` argument that
is `None` or `0` is replaced by the sample count. -/
def pyEnd (sample_count : ℕ) : Option ℕ → ℕ
  | none => sample_count
  | some v => if v = 0 then sample_count else v

/-- `_process_data(beg, end)` / `process_data(beg, end)`: computes
`phasor = np.dot(signal_a[beg:end], eiwt[beg:end])`, returns
`(abs(phasor)*2.0/npoints, cmath.phase(phasor))` with
`npoints = end - beg`. -/
noncomputable def process_data (signal : List ℝ) (eiwt : List ℂ)
    (sample_count : ℕ) (beg : ℕ) (endOpt : Option ℕ) : ℝ × ℝ :=
  let e := pyEnd sample_count endOpt
  let npoints : ℝ := (e : ℝ) - (beg : ℝ)
  let phasor : ℂ := dotRC (pySlice signal beg e) (pySlice eiwt beg e)
  let phase_a : ℝ := Complex.arg phasor
  let ampl_a : ℝ := Complex.abs phasor * 2 / npoints
  (ampl_a, phase_a)

lemma getD_take {α : Type} (xs : List α) (d : α) (e n : ℕ) (h : n < e) :
    (xs.take e).getD n d = xs.getD n d := by
  induction xs generalizing e n with
  | nil => simp
  | cons x xs ih =>
    cases e with
    | zero => omega
    | succ e' =>
      cases n with
      | zero => simp
      | succ n' =>
        simp only [List.take_succ_cons, List.getD_cons_succ]
        exact ih e' n' (by omega)

lemma dotRC_eq_sum_range (xs : List ℝ) (ys : List ℂ) :
    dotRC xs ys = ∑ n ∈ Finset.range (min xs.length ys.length),
      (xs.getD n 0 : ℂ) * ys.getD n 0 := by
  induction xs generalizing ys with
  | nil => simp [dotRC]
  | cons x xs ih =>
    cases ys with
    | nil => simp [dotRC]
    | cons y ys =>
      simp only [dotRC, List.zipWith_cons_cons, List.sum_cons] at *
      rw [ih ys]
      have hmin : min (x :: xs).length (y :: ys).length =
          min xs.length ys.length + 1 := by
        simp only [List.length_cons]
        omega
      rw [hmin, Finset.sum_range_succ']
      simp only [List.getD_cons_succ, List.getD_cons_zero]
      ring

lemma dotRC_drop (as : List ℝ) (bs : List ℂ) (hlen : as.length = bs.length)
    (beg : ℕ) :
    dotRC (as.drop beg) (bs.drop beg) =
      ∑ n ∈ Finset.Ico beg as.length,
        (as.getD n 0 : ℂ) * bs.getD n 0 := by
  induction as generalizing bs beg with
  | nil =>
    cases bs with
    | nil => simp [dotRC]
    | cons b bs => simp at hlen
  | cons a as ih =>
    cases bs with
    | nil => simp at hlen
    | cons b bs =>
      simp only [List.length_cons] at hlen
      cases beg with
      | zero =>
        simp only [List.drop_zero]
        rw [dotRC_eq_sum_range]
        have : min (a :: as).length (b :: bs).length = (a :: as).length := by
          simp only [List.length_cons]
          omega
        rw [this, Finset.range_eq_Ico]
      | succ m =>
        simp only [List.drop_succ_cons]
        rw [ih bs (by omega) m]
        rw [Finset.sum_Ico_eq_sum_range, Finset.sum_Ico_eq_sum_range]
        simp only [List.length_cons, Nat.succ_sub_succ]
        refine Finset.sum_congr rfl ?_
        intro n _
        have h1 : m + 1 + n = (m + n) + 1 := by omega
        rw [h1, List.getD_cons_succ, List.getD_cons_succ]

/-- The complex dot product over numpy slices `[beg:end]` equals the
indexed sum `Σ_{n=beg}^{end-1} signal[n]·reference[n]`. -/
lemma dotRC_pySlice (xs : List ℝ) (ys : List ℂ) (beg e : ℕ)
    (hx : e ≤ xs.length) (hy : e ≤ ys.length) :
    dotRC (pySlice xs beg e) (pySlice ys beg e) =
      ∑ n ∈ Finset.Ico beg e, (xs.getD n 0 : ℂ) * ys.getD n 0 := by
  have h1 : (xs.take e).length = e := by
    simp [List.length_take, Nat.min_eq_left hx]
  have h2 : (ys.take e).length = e := by
    simp [List.length_take, Nat.min_eq_left hy]
  rw [pySlice, pySlice, dotRC_drop (xs.take e) (ys.take e) (h1.trans h2.symm) beg, h1]
  refine Finset.sum_congr rfl ?_
  intro n hn
  rw [Finset.mem_Ico] at hn
  rw [getD_take xs 0 e n hn.2, getD_take ys 0 e n hn.2]

lemma eiwtList_getD (f T : ℝ) (sample_count n : ℕ) (h : n < sample_count) :
    (eiwtList f T sample_count).getD n 0 = refSignal f T n := by
  have hlen : n < (eiwtList f T sample_count).length := by
    simp [eiwtList, h]
  rw [List.getD_eq_getElem _ _ hlen]
  simp [eiwtList]

/-- **C2**: for every sampled waveform and every window
`0 ≤ beg < end ≤ sample_count`, `process_data`/`_process_data` returns
`amplitude = 2*|P|/(end-beg)` and `phase = arg(P)` with
`P = Σ_{n=beg}^{end-1} signal[n] * reference_signal[n]` and
`reference_signal[n] = exp(i*2π*f_oper*t[n])` the precomputed complex
exponential at the operating frequency. -/
theorem process_data_lock_in (signal : List ℝ) (f T : ℝ)
    (sample_count beg e : ℕ) (hbe : beg < e) (hes : e ≤ sample_count)
    (hsig : sample_count = signal.length) :
    process_data signal (eiwtList f T sample_count) sample_count beg (some e) =
      (2 * Complex.abs (∑ n ∈ Finset.Ico beg e,
          (signal.getD n 0 : ℂ) * refSignal f T n) / ((e : ℝ) - (beg : ℝ)),
       Complex.arg (∑ n ∈ Finset.Ico beg e,
          (signal.getD n 0 : ℂ) * refSignal f T n)) := by
  have he0 : e ≠ 0 := by omega
  have hEnd : pyEnd sample_count (some e) = e := by simp [pyEnd, he0]
  have hlenx : e ≤ signal.length := by omega
  have hleny : e ≤ (eiwtList f T sample_count).length := by
    simp only [eiwtList, List.length_map, List.length_range]
    exact hes
  have hdot := dotRC_pySlice signal (eiwtList f T sample_count) beg e hlenx hleny
  have hsum : (∑ n ∈ Finset.Ico beg e,
        (signal.getD n 0 : ℂ) * (eiwtList f T sample_count).getD n 0) =
      ∑ n ∈ Finset.Ico beg e, (signal.getD n 0 : ℂ) * refSignal f T n := by
    refine Finset.sum_congr rfl ?_
    intro n hn
    rw [Finset.mem_Ico] at hn
    rw [eiwtList_getD f T sample_count n (by omega)]
  simp only [process_data, hEnd, hdot, hsum, Prod.mk.injEq]
  constructor
  · ring
  · trivial

/-- Witness for C2: a one-sample waveform with the full window. -/
theorem process_data_lock_in_witness :
    process_data [1] (eiwtList 0 0 1) 1 0 (some 1) =
      (2 * Complex.abs (∑ n ∈ Finset.Ico 0 1,
          (([(1 : ℝ)].getD n 0 : ℂ)) * refSignal 0 0 n) /
            (((1 : ℕ) : ℝ) - ((0 : ℕ) : ℝ)),
       Complex.arg (∑ n ∈ Finset.Ico 0 1,
          (([(1 : ℝ)].getD n 0 : ℂ)) * refSignal 0 0 n)) :=
  process_data_lock_in [1] 0 0 1 0 1 (by decide) (by decide) (by decide)

/-- **C8**: for every waveform and every valid processing window, the pair
returned by `process_data`/`_process_data` satisfies `amplitude ≥ 0` and
`phase ∈ (-π, π]`. -/
theorem process_data_amp_phase_invariant (signal : List ℝ) (eiwt : List ℂ)
    (sample_count beg : ℕ) (endOpt : Option ℕ)
    (hbe : beg < pyEnd sample_count endOpt) :
    0 ≤ (process_data signal eiwt sample_count beg endOpt).1 ∧
    (process_data signal eiwt sample_count beg endOpt).2 ∈
      Set.Ioc (-Real.pi) Real.pi := by
  constructor
  · show 0 ≤ Complex.abs (dotRC _ _) * 2 / _
    apply div_nonneg
    · positivity
    · have : (beg : ℝ) < (pyEnd sample_count endOpt : ℝ) := by exact_mod_cast hbe
      linarith
  · exact Complex.arg_mem_Ioc _

/-- Witness for C8: one sample, window `[0, 1)` through the default
(`end = None`) path. -/
theorem process_data_amp_phase_invariant_witness :
    0 ≤ (process_data [1] [1] 1 0 none).1 ∧
    (process_data [1] [1] 1 0 none).2 ∈ Set.Ioc (-Real.pi) Real.pi :=
  process_data_amp_phase_invariant [1] [1] 1 0 none (by decide)

/-- **C10**: in `process_data`/`_process_data` a falsy `end` argument
(`None` or `0`) is replaced by `sample_count`, so a call with `end = 0`
processes the full window `[beg, sample_count)` rather than an empty one,
and is indistinguishable from `end = None`. -/
theorem process_data_end_falsy (signal : List ℝ) (eiwt : List ℂ)
    (sample_count beg : ℕ) :
    process_data signal eiwt sample_count beg (some 0) =
      process_data signal eiwt sample_count beg none ∧
    process_data signal eiwt sample_count beg none =
      process_data signal eiwt sample_count beg (some sample_count) ∧
    pyEnd sample_count (some 0) = sample_count := by
  have h0 : pyEnd sample_count (some 0) = sample_count := by simp [pyEnd]
  have hn : pyEnd sample_count none = sample_count := rfl
  have hsc : pyEnd sample_count (some sample_count) = sample_count := by
    by_cases h : sample_count = 0 <;> simp [pyEnd, h]
  refine ⟨?_, ?_, h0⟩ <;> simp only [process_data, h0, hn, hsc]

/-! ## Time-of-flight window adjustment (claim C6)

`backend/acquisition.py::_adjust_beg` (identical to the legacy
`adjust_beg`) and the guard in `_scan_grid` that only replaces the window
when `adjust != 0`. -/

/-- Python's `int()` conversion: truncation toward zero. -/
def pyTrunc (q : ℚ) : ℤ := if 0 ≤ q then ⌊q⌋ else ⌈q⌉

/-- `_adjust_beg(k)`:
`newbegus = begus + adjust * k * row_pixel_us`;
`begn = int(newbegus * 1e-6 * pico_sampling_freq)`;
`endn = begn + npoints`. -/
def adjust_beg (begus row_pixel_us sampling_freq : ℚ) (adjust npoints : ℤ)
    (k : ℕ) : ℤ × ℤ :=
  let newbegus := begus + (adjust : ℚ) * (k : ℚ) * row_pixel_us
  let begn := pyTrunc (newbegus * (1 / 1000000) * sampling_freq)
  (begn, begn + npoints)

/-- The per-point window update of `_scan_grid`: the stored window is
replaced by `_adjust_beg(k)` only when `adjust != 0`. -/
def scan_window_update (begus row_pixel_us sampling_freq : ℚ)
    (adjust npoints : ℤ) (k : ℕ) (w : ℤ × ℤ) : ℤ × ℤ :=
  if adjust ≠ 0 then adjust_beg begus row_pixel_us sampling_freq adjust npoints k
  else w

/-- **C6**: for every column index `k` and configured
`adjust ∈ {-1, 0, +1}`, the window returned by `_adjust_beg` has width
`endn - begn = npoints` (the originally configured width), and when
`adjust = 0` the processing window used during the scan is never shifted,
whatever the sequence of column indices. -/
theorem adjust_beg_preserves_width (begus row_pixel_us sampling_freq : ℚ)
    (adjust npoints : ℤ) (k : ℕ) (w : ℤ × ℤ) (ks : List ℕ)
    (hadj : adjust = -1 ∨ adjust = 0 ∨ adjust = 1) :
    (adjust_beg begus row_pixel_us sampling_freq adjust npoints k).2 -
      (adjust_beg begus row_pixel_us sampling_freq adjust npoints k).1 =
        npoints ∧
    (adjust = 0 →
      ks.foldl
        (fun w k => scan_window_update begus row_pixel_us sampling_freq
          adjust npoints k w) w = w) := by
  constructor
  · simp only [adjust_beg]
    ring
  · intro h0
    induction ks generalizing w with
    | nil => rfl
    | cons a ks ih =>
      simp only [List.foldl_cons, scan_window_update, h0]
      simpa using ih

/-- Witness for C6 at `adjust = 0` with a concrete window and column
index sequence. -/
theorem adjust_beg_preserves_width_witness :
    (adjust_beg 40 1 15625000 0 2500 7).2 -
      (adjust_beg 40 1 15625000 0 2500 7).1 = 2500 ∧
    ((0 : ℤ) = 0 →
      [0, 1, 2].foldl
        (fun w k => scan_window_update 40 1 15625000 0 2500 k w)
        ((625, 3125) : ℤ × ℤ) = (625, 3125)) :=
  adjust_beg_preserves_width 40 1 15625000 0 2500 7 (625, 3125) [0, 1, 2]
    (by norm_num)

/-! ## Acquisition retry bound (claim C5)

`backend/acquisition.py::_acquire_data` / legacy `acquire_data`: one
arm/trigger/wait cycle, then `if not ok and attempt < 5:` recurse with
`attempt + 1`. -/

/-- Number of arm/wait cycles performed by `_acquire_data(attempt)` when
the `n`-th wait (0-based over the whole call tree) returns `ok n`. -/
def acquire_data_cycles (ok : ℕ → Bool) (n attempt : ℕ) : ℕ :=
  if ¬ ok n ∧ attempt < 5 then
    1 + acquire_data_cycles ok (n + 1) (attempt + 1)
  else 1
termination_by 5 - attempt
decreasing_by omega

lemma acquire_data_cycles_allfail (ok : ℕ → Bool) (hok : ∀ n, ok n = false) :
    ∀ m n attempt, attempt + m = 5 →
      acquire_data_cycles ok n attempt = m + 1 := by
  intro m
  induction m with
  | zero =>
    intro n attempt h5
    rw [acquire_data_cycles, if_neg (by omega)]
  | succ m ih =>
    intro n attempt h5
    rw [acquire_data_cycles, if_pos ⟨by simp [hok n], by omega⟩,
        ih (n + 1) (attempt + 1) (by omega)]
    omega

/-- **C5**: with a digitizer whose wait-for-acquisition fails on every
attempt, a top-level call `_acquire_data()` (i.e. `attempt = 0`) performs
exactly 6 arm/wait cycles — one initial plus five retries — and then
returns; never a 7th. -/
theorem acquire_data_retry_bound (ok : ℕ → Bool)
    (hok : ∀ n, ok n = false) :
    acquire_data_cycles ok 0 0 = 6 :=
  acquire_data_cycles_allfail ok hok 5 0 0 (by omega)

/-- Witness for C5: the digitizer that always times out. -/
theorem acquire_data_retry_bound_witness :
    acquire_data_cycles (fun _ => false) 0 0 = 6 :=
  acquire_data_retry_bound (fun _ => false) (fun _ => rfl)

/-! ## Alignment center-of-mass search (claim C4)

`backend/acquisition.py::_scan_and_find_center_of_mass`:
`cumsum = np.cumsum(max_voltages)`; `total_sum = cumsum[-1]`;
`center_of_mass_index = np.argmin(np.abs(cumsum - total_sum / 2))`;
`center_of_mass = dest_xyz_list[center_of_mass_index][0 or 1]`. -/

/-- `np.cumsum` with a running accumulator. -/
def cumsumFrom (acc : ℚ) : List ℚ → List ℚ
  | [] => []
  | x :: xs => (acc + x) :: cumsumFrom (acc + x) xs

/-- `np.cumsum`: inclusive partial sums. -/
def np_cumsum (l : List ℚ) : List ℚ := cumsumFrom 0 l

/-- `np.argmin`: index of the first occurrence of the minimum value
(0 on the empty list, where numpy raises instead). -/
def np_argmin : List ℚ → ℕ
  | [] => 0
  | [_] => 0
  | x :: y :: ys =>
    let j := np_argmin (y :: ys)
    if x ≤ (y :: ys).getD j 0 then 0 else j + 1

/-- The index selected by `_scan_and_find_center_of_mass` from the
per-point maximum voltages. -/
def center_of_mass_index (max_voltages : List ℚ) : ℕ :=
  let cs := np_cumsum max_voltages
  let total := cs.getD (cs.length - 1) 0
  np_argmin (cs.map (fun c => |c - total / 2|))

/-- The coordinate (X or Y component of `dest_xyz_list`, collapsed to a
1D list per scan direction) returned by
`_scan_and_find_center_of_mass`. -/
def scan_center_of_mass (max_voltages coords : List ℚ) : ℚ :=
  coords.getD (center_of_mass_index max_voltages) 0

/-- The selection rule as the claim states it: the first scanned point at
which the cumulative sum reaches half of the total sum. -/
def firstHalfIndex (max_voltages : List ℚ) : ℕ :=
  let cs := np_cumsum max_voltages
  let total := cs.getD (cs.length - 1) 0
  cs.findIdx (fun c => decide (total / 2 ≤ c))

/-- The coordinate the claim says is returned. -/
def spec_center_of_mass (max_voltages coords : List ℚ) : ℚ :=
  coords.getD (firstHalfIndex max_voltages) 0

example : np_cumsum [2, 1, 2] = [2, 3, 5] := by norm_num [np_cumsum, cumsumFrom]
example : center_of_mass_index [2, 1, 2] = 0 := by
  norm_num [center_of_mass_index, np_cumsum, cumsumFrom, np_argmin, abs_of_nonneg]
example : firstHalfIndex [2, 1, 2] = 1 := by
  norm_num [firstHalfIndex, np_cumsum, cumsumFrom, List.findIdx, List.findIdx.go]

lemma np_argmin_lt_length : ∀ (l : List ℚ), l ≠ [] → np_argmin l < l.length := by
  intro l
  induction l with
  | nil => simp
  | cons x xs ih =>
    cases xs with
    | nil => intro _; simp [np_argmin]
    | cons y ys =>
      intro _
      simp only [np_argmin]
      split
      · simp
      · have h := ih (by simp)
        simp only [List.length_cons] at h ⊢
        omega

lemma np_argmin_le (l : List ℚ) :
    ∀ j < l.length, l.getD (np_argmin l) 0 ≤ l.getD j 0 := by
  induction l with
  | nil => intro j hj; simp at hj
  | cons x xs ih =>
    cases xs with
    | nil =>
      intro j hj
      simp only [List.length_cons, List.length_nil] at hj
      have : j = 0 := by omega
      subst this
      simp [np_argmin]
    | cons y ys =>
      intro j hj
      simp only [np_argmin]
      split
      · rename_i hle
        cases j with
        | zero => simp
        | succ j' =>
          simp only [List.getD_cons_zero, List.getD_cons_succ]
          refine le_trans hle ?_
          refine ih j' ?_
          simp only [List.length_cons] at hj ⊢
          omega
      · rename_i hgt
        cases j with
        | zero =>
          simp only [List.getD_cons_succ, List.getD_cons_zero]
          exact le_of_lt (lt_of_not_le hgt)
        | succ j' =>
          simp only [List.getD_cons_succ]
          refine ih j' ?_
          simp only [List.length_cons] at hj ⊢
          omega

lemma np_argmin_first (l : List ℚ) :
    ∀ j < np_argmin l, l.getD (np_argmin l) 0 < l.getD j 0 := by
  induction l with
  | nil => simp [np_argmin]
  | cons x xs ih =>
    cases xs with
    | nil => simp [np_argmin]
    | cons y ys =>
      intro j hj
      simp only [np_argmin] at hj ⊢
      split at hj
      · omega
      · rename_i hgt
        rw [if_neg hgt]
        cases j with
        | zero =>
          simp only [List.getD_cons_succ, List.getD_cons_zero]
          exact lt_of_not_le hgt
        | succ j' =>
          simp only [List.getD_cons_succ]
          exact ih j' (by omega)

lemma cumsumFrom_length (acc : ℚ) (l : List ℚ) :
    (cumsumFrom acc l).length = l.length := by
  induction l generalizing acc with
  | nil => rfl
  | cons x xs ih => simp [cumsumFrom, ih]

lemma np_cumsum_length (l : List ℚ) : (np_cumsum l).length = l.length :=
  cumsumFrom_length 0 l

/-- **C4 (amended)**: the coordinate returned by
`_scan_and_find_center_of_mass` is that of the scanned point whose
cumulative sum lies closest (in absolute difference) to half of the total
sum — on ties the earliest such point, by `np.argmin`'s first-minimum
rule — which in general is not the first point at which the cumulative
sum reaches half of the total. -/
theorem scan_center_of_mass_closest (max_voltages coords : List ℚ) (j : ℕ)
    (hne : max_voltages ≠ []) (hj : j < max_voltages.length) :
    center_of_mass_index max_voltages < max_voltages.length ∧
    ((np_cumsum max_voltages).map (fun c =>
        |c - (np_cumsum max_voltages).getD
          ((np_cumsum max_voltages).length - 1) 0 / 2|)).getD
      (center_of_mass_index max_voltages) 0 ≤
    ((np_cumsum max_voltages).map (fun c =>
        |c - (np_cumsum max_voltages).getD
          ((np_cumsum max_voltages).length - 1) 0 / 2|)).getD j 0 ∧
    (j < center_of_mass_index max_voltages →
      ((np_cumsum max_voltages).map (fun c =>
          |c - (np_cumsum max_voltages).getD
            ((np_cumsum max_voltages).length - 1) 0 / 2|)).getD
        (center_of_mass_index max_voltages) 0 <
      ((np_cumsum max_voltages).map (fun c =>
          |c - (np_cumsum max_voltages).getD
            ((np_cumsum max_voltages).length - 1) 0 / 2|)).getD j 0) ∧
    scan_center_of_mass max_voltages coords =
      coords.getD (center_of_mass_index max_voltages) 0 := by
  set cs := np_cumsum max_voltages with hcs
  set ds := cs.map (fun c => |c - cs.getD (cs.length - 1) 0 / 2|) with hds
  have hdslen : ds.length = max_voltages.length := by
    rw [hds, List.length_map, hcs, np_cumsum_length]
  have hdsne : ds ≠ [] := by
    intro h
    apply hne
    have := hdslen
    rw [h] at this
    simp only [List.length_nil] at this
    exact List.length_eq_zero.mp this.symm
  have hidx : center_of_mass_index max_voltages = np_argmin ds := rfl
  refine ⟨?_, ?_, ?_, rfl⟩
  · rw [hidx, ← hdslen]
    exact np_argmin_lt_length ds hdsne
  · rw [hidx]
    exact np_argmin_le ds j (by omega)
  · intro hlt
    rw [hidx]
    exact np_argmin_first ds j (hidx ▸ hlt)

/-- Witness for C4's amended theorem on the voltage profile `[2, 1, 2]`. -/
theorem scan_center_of_mass_closest_witness :
    center_of_mass_index [2, 1, 2] < ([2, 1, 2] : List ℚ).length ∧
    ((np_cumsum [2, 1, 2]).map (fun c =>
        |c - (np_cumsum [2, 1, 2]).getD
          ((np_cumsum [2, 1, 2]).length - 1) 0 / 2|)).getD
      (center_of_mass_index [2, 1, 2]) 0 ≤
    ((np_cumsum [2, 1, 2]).map (fun c =>
        |c - (np_cumsum [2, 1, 2]).getD
          ((np_cumsum [2, 1, 2]).length - 1) 0 / 2|)).getD 1 0 ∧
    (1 < center_of_mass_index [2, 1, 2] →
      ((np_cumsum [2, 1, 2]).map (fun c =>
          |c - (np_cumsum [2, 1, 2]).getD
            ((np_cumsum [2, 1, 2]).length - 1) 0 / 2|)).getD
        (center_of_mass_index [2, 1, 2]) 0 <
      ((np_cumsum [2, 1, 2]).map (fun c =>
          |c - (np_cumsum [2, 1, 2]).getD
            ((np_cumsum [2, 1, 2]).length - 1) 0 / 2|)).getD 1 0) ∧
    scan_center_of_mass [2, 1, 2] [10, 20, 30] =
      ([10, 20, 30] : List ℚ).getD (center_of_mass_index [2, 1, 2]) 0 :=
  scan_center_of_mass_closest [2, 1, 2] [10, 20, 30] 1 (by decide) (by decide)

/-- Counterexample to C4 as stated: for per-point maxima `[2, 1, 2]` with
coordinates `[10, 20, 30]`, the cumulative sums are `[2, 3, 5]` and half
the total is `5/2`; the code's `argmin of |cumsum - total/2|` selects
index 0 (coordinate 10), while the first point whose cumulative sum
reaches half of the total is index 1 (coordinate 20). -/
theorem scan_center_of_mass_cex :
    scan_center_of_mass [2, 1, 2] [10, 20, 30] = 10 ∧
    spec_center_of_mass [2, 1, 2] [10, 20, 30] = 20 ∧
    scan_center_of_mass [2, 1, 2] [10, 20, 30] ≠
      spec_center_of_mass [2, 1, 2] [10, 20, 30] := by
  have h1 : scan_center_of_mass [2, 1, 2] [10, 20, 30] = 10 := by
    norm_num [scan_center_of_mass, center_of_mass_index, np_cumsum, cumsumFrom,
      np_argmin, abs_of_nonneg]
  have h2 : spec_center_of_mass [2, 1, 2] [10, 20, 30] = 20 := by
    norm_num [spec_center_of_mass, firstHalfIndex, np_cumsum, cumsumFrom,
      List.findIdx, List.findIdx.go]
  refine ⟨h1, h2, ?_⟩
  rw [h1, h2]
  norm_num

/-! ## Acoustical axis fit (claim C7)

`backend/acquisition.py::_calculate_acoustical_axis`: the whole fit is
wrapped in `if len(middle_points) > 1:` with no `else` branch — with
fewer than 2 middle points the method simply returns `None` without
raising and without storing an axis.  (The source normalizes the stored
direction by its euclidean norm; the guard behaviour under scrutiny here
is unaffected by that scaling.) -/

/-- `_calculate_acoustical_axis(middle_points)`: `some (origin,
direction)` when at least two middle points are available (origin is the
point of the fitted line at `z = coord_zero[2]`), and `none` — the silent
skip — otherwise. -/
def calculate_acoustical_axis (coord_zero_z : ℚ) (middle_points : List Vec3) :
    Option (Vec3 × Vec3) :=
  if 1 < middle_points.length then
    let point1 := middle_points.getD 0 (0, 0, 0)
    let point2 := middle_points.getD 1 (0, 0, 0)
    let direction_vector := point2 - point1
    let t := (coord_zero_z - point1.2.2) / direction_vector.2.2
    some (point1 + smul3 t direction_vector, direction_vector)
  else none

/-- **C7, behaviour of the code at the claim's failing input**: with fewer
than 2 middle points (here a single converged plane center, and the empty
list), `_calculate_acoustical_axis` silently skips the axis fit and
yields no axis — it does not fail, contradicting the claim that this
situation must be a terminal error. -/
theorem calculate_acoustical_axis_silently_skips :
    calculate_acoustical_axis 0 [((0 : ℚ), (0 : ℚ), (0 : ℚ))] = none ∧
    calculate_acoustical_axis 0 ([] : List Vec3) = none ∧
    calculate_acoustical_axis 0
      [((0 : ℚ), (0 : ℚ), (0 : ℚ)), ((0 : ℚ), (0 : ℚ), (1 : ℚ))] ≠ none := by
  refine ⟨rfl, rfl, ?_⟩
  simp [calculate_acoustical_axis]

end FUSKit
